import Mathlib

/-!
Shallow embedding of `src/iblt.rs` (Invertible Bloom Lookup Table) from the
defiads repository, together with proofs about its operations.

Modelling conventions:
* Bytes and 64-bit words are `Nat`; every hash output is truncated with
  `% 2 ^ 64`, mirroring the `u64` return type of `IBLT::hash`.
* The keyed hash itself (SipHash-2-4 from the external `bitcoin_hashes`
  crate) is abstracted as a parameter `H : Nat → Nat → Nat → ...`; the code
  under verification never inspects the hash beyond calling it, so every
  statement is proved for an arbitrary keyed hash.  `hash64 H k0 k1 id`
  models `IBLT::hash(k0, k1, id)`.
* `counter: i32` is modelled as `Int` (the counters involved in the claims
  stay far below the `i32` range).
* The `assert_eq!(id.len(), ID_LEN)` guards of `insert`/`delete` are
  modelled by `Option`: a `none` result is a panic.
* Random seed generation in `IBLT::new` is abstracted by taking the two
  seeds as parameters.
-/

namespace Iblt

/-- update the element at position `n` of a list in place; out-of-range
positions leave the list unchanged (the Rust code never indexes out of
range, see `fastReduce_lt`). -/
def updN {α : Type} : List α → Nat → (α → α) → List α
  | [], _, _ => []
  | x :: xs, 0, f => f x :: xs
  | x :: xs, n + 1, f => x :: updN xs n f

/-- the identifier length fixed by the source: `const ID_LEN: usize = 32`. -/
def ID_LEN : Nat := 32

/-- a bucket of the table: `keysum: [u8; ID_LEN]`, `keyhash: u64`,
`counter: i32`. -/
structure Bucket where
  keysum : List Nat
  keyhash : Nat
  counter : Int
  deriving DecidableEq

/-- `Bucket::default()`: all-zero key sum, zero key hash, zero counter. -/
def Bucket.empty : Bucket := ⟨List.replicate ID_LEN 0, 0, 0⟩

/-- the table: `buckets: Vec<Bucket>`, seeds `k0`, `k1`, fan-out `k`. -/
structure IBLT where
  buckets : List Bucket
  k0 : Nat
  k1 : Nat
  k : Nat
  deriving DecidableEq

/-- `IBLT::new(m, k)` with the two random seeds made explicit. -/
def IBLT.new (m k k0 k1 : Nat) : IBLT :=
  ⟨List.replicate m Bucket.empty, k0, k1, k⟩

/-- `IBLT::hash(k0, k1, id)`: the keyed hash, abstracted; the `% 2 ^ 64`
records that the source's hash returns a `u64`. -/
def hash64 (H : Nat → Nat → List Nat → Nat) (k0 k1 : Nat) (id : List Nat) : Nat :=
  H k0 k1 id % 2 ^ 64

/-- `IBLT::fast_reduce(n, r) = ((n as u128 * r as u128) >> 64) as usize`. -/
def fastReduce (n r : Nat) : Nat :=
  n * r / 2 ^ 64

/-- byte-wise XOR of the key sum with an identifier:
`for i in 0..id.len() { bucket.keysum[i] ^= id[i] }`. -/
def zipXor (s id : List Nat) : List Nat :=
  List.zipWith (fun a b => a ^^^ b) s id

/-- the per-bucket effect of one chain round of `insert` (`delta = 1`),
`delete` (`delta = -1`) or a peel (`delta = -c`): XOR the identifier into
`keysum`, add `delta` to `counter`, XOR the checksum hash into `keyhash`. -/
def bucketUpd (id : List Nat) (kh : Nat) (delta : Int) (b : Bucket) : Bucket :=
  ⟨zipXor b.keysum id, b.keyhash ^^^ kh, b.counter + delta⟩

/-- the bucket indices selected by `r` rounds of the index chain
`hash = Self::hash(hash, self.k1, id); n = fast_reduce(hash, m)` starting
from the running hash value `h`. -/
def chainIndicesAux (H : Nat → Nat → List Nat → Nat) (k1 : Nat) (id : List Nat)
    (m : Nat) : Nat → Nat → List Nat
  | 0, _ => []
  | r + 1, h =>
    let h' := hash64 H h k1 id
    fastReduce h' m :: chainIndicesAux H k1 id m r h'

/-- the `k` bucket indices a given identifier touches in table `t`. -/
def indicesOf (H : Nat → Nat → List Nat → Nat) (t : IBLT) (id : List Nat) : List Nat :=
  chainIndicesAux H t.k1 id t.buckets.length t.k t.k0

/-- the `for _ in 0..self.k` loop shared verbatim (up to the sign of the
counter update) by `insert` and `delete`. -/
def mutRounds (H : Nat → Nat → List Nat → Nat) (k1 : Nat) (id : List Nat)
    (kh : Nat) (delta : Int) : Nat → Nat → List Bucket → List Bucket
  | 0, _, bs => bs
  | r + 1, h, bs =>
    let h' := hash64 H h k1 id
    let n := fastReduce h' bs.length
    mutRounds H k1 id kh delta r h' (updN bs n (bucketUpd id kh delta))

/-- body of `IBLT::insert` after the length assertion. -/
def insertRaw (H : Nat → Nat → List Nat → Nat) (t : IBLT) (id : List Nat) : IBLT :=
  { t with buckets :=
      mutRounds H t.k1 id (hash64 H t.k1 t.k0 id) 1 t.k t.k0 t.buckets }

/-- body of `IBLT::delete` after the length assertion. -/
def deleteRaw (H : Nat → Nat → List Nat → Nat) (t : IBLT) (id : List Nat) : IBLT :=
  { t with buckets :=
      mutRounds H t.k1 id (hash64 H t.k1 t.k0 id) (-1) t.k t.k0 t.buckets }

/-- `IBLT::insert`, with `assert_eq!(id.len(), ID_LEN)` modelled as `none`
(a panic). -/
def IBLT.insert (H : Nat → Nat → List Nat → Nat) (t : IBLT) (id : List Nat) :
    Option IBLT :=
  if id.length = ID_LEN then some (insertRaw H t id) else none

/-- `IBLT::delete`, with the length assertion modelled as `none`. -/
def IBLT.delete (H : Nat → Nat → List Nat → Nat) (t : IBLT) (id : List Nat) :
    Option IBLT :=
  if id.length = ID_LEN then some (deleteRaw H t id) else none

/-- the single error kind of the decoder:
`enum IBLTError { IncompleteIteration }`. -/
inductive IBLTError where
  | IncompleteIteration
  deriving DecidableEq

/-- the purity test used when enqueuing a bucket:
`bucket.counter.abs() == 1 && bucket.keyhash == hash(k1, k0, keysum)`. -/
def pureB (H : Nat → Nat → List Nat → Nat) (k0 k1 : Nat) (b : Bucket) : Bool :=
  b.counter.natAbs == 1 && b.keyhash == hash64 H k1 k0 b.keysum

/-- decoder state: the owned table, the FIFO work queue of bucket indices,
and `one` (+1 for `added = true`, -1 for `added = false`). -/
structure IterState where
  iblt : IBLT
  queue : List Nat
  one : Int
  deriving DecidableEq

/-- `IBLTIterator::new`: scan all buckets in order and enqueue the pure
ones.  Both `IBLT::iter` (which clones first) and `IBLT::into_iter` reach
this constructor; in the pure embedding the clone is implicit. -/
def iterNew (H : Nat → Nat → List Nat → Nat) (t : IBLT) (added : Bool) : IterState :=
  { iblt := t
    queue := (List.range t.buckets.length).filter
      (fun i => pureB H t.k0 t.k1 (t.buckets.getD i Bucket.empty))
    one := if added then 1 else -1 }

/-- the `for _ in 0..self.iblt.k` peel loop inside `IBLTIterator::next`:
each round XORs the candidate out of the chained bucket, subtracts the
popped counter `c`, XORs out the recomputed checksum, and enqueues the
bucket if it just became pure. -/
def peelRounds (H : Nat → Nat → List Nat → Nat) (k0 k1 : Nat) (id : List Nat)
    (kh : Nat) (c : Int) : Nat → Nat → List Bucket → List Nat → List Bucket × List Nat
  | 0, _, bs, q => (bs, q)
  | r + 1, h, bs, q =>
    let h' := hash64 H h k1 id
    let n := fastReduce h' bs.length
    let bs' := updN bs n (bucketUpd id kh (-c))
    let q' := if pureB H k0 k1 (bs'.getD n Bucket.empty) then q ++ [n] else q
    peelRounds H k0 k1 id kh c r h' bs' q'

/-- result of processing one queue pop in `IBLTIterator::next`: emit an
identifier, continue the loop silently, or (on an empty queue) finish with
or without the incomplete-decode error. -/
inductive StepRes where
  | emit (id : List Nat)
  | skip
  | finished (err : Bool)
  deriving DecidableEq

/-- one iteration of the `while let Some(i) = self.queue.pop_front()` loop
of `IBLTIterator::next`; an empty queue yields the terminal bucket scan.
The candidate identifier, its checksum hash and the `found` flag are all
read from the table before the peel, as in the source. -/
def iterStep (H : Nat → Nat → List Nat → Nat) : IterState → StepRes × IterState
  | ⟨t, [], one⟩ =>
    (StepRes.finished (t.buckets.any (fun b => b.counter != 0)), ⟨t, [], one⟩)
  | ⟨t, i :: rest, one⟩ =>
    if (t.buckets.getD i Bucket.empty).counter.natAbs = 1 then
      (if (t.buckets.getD i Bucket.empty).counter == one
          && hash64 H t.k1 t.k0 (t.buckets.getD i Bucket.empty).keysum
            == (t.buckets.getD i Bucket.empty).keyhash
        then StepRes.emit (t.buckets.getD i Bucket.empty).keysum
        else StepRes.skip,
       ⟨{ t with buckets :=
            (peelRounds H t.k0 t.k1 (t.buckets.getD i Bucket.empty).keysum
              (hash64 H t.k1 t.k0 (t.buckets.getD i Bucket.empty).keysum)
              (t.buckets.getD i Bucket.empty).counter
              t.k t.k0 t.buckets rest).1 },
        (peelRounds H t.k0 t.k1 (t.buckets.getD i Bucket.empty).keysum
          (hash64 H t.k1 t.k0 (t.buckets.getD i Bucket.empty).keysum)
          (t.buckets.getD i Bucket.empty).counter
          t.k t.k0 t.buckets rest).2,
        one⟩)
    else
      (StepRes.skip, ⟨t, rest, one⟩)

/-- `IBLTIterator::next`, fuelled: the source loop pops queue entries until
it can emit an identifier or the queue is exhausted; `none` means the fuel
ran out before the loop settled.  `some (none, st)` is Rust's `None`
(end of sequence), `some (some item, st)` is `Some(item)`. -/
def iterNext (H : Nat → Nat → List Nat → Nat) :
    Nat → IterState → Option (Option (Except IBLTError (List Nat)) × IterState)
  | 0, _ => none
  | f + 1, st =>
    match iterStep H st with
    | (StepRes.emit id, st') => some (some (Except.ok id), st')
    | (StepRes.finished true, st') =>
      some (some (Except.error IBLTError.IncompleteIteration), st')
    | (StepRes.finished false, st') => some (none, st')
    | (StepRes.skip, st') => iterNext H f st'

/-- the sequence of items a consumer pulling the iterator to completion
sees: identifiers in order, ending either silently (`None` from `next`) or
with the terminal incomplete-decode error, at which point every consumer
in the source stops pulling.  `none` means the fuel ran out. -/
def decodeRun (H : Nat → Nat → List Nat → Nat) :
    Nat → IterState → Option (List (Except IBLTError (List Nat)))
  | 0, _ => none
  | f + 1, st =>
    match iterNext H (f + 1) st with
    | none => none
    | some (none, _) => some []
    | some (some (Except.error e), _) => some [Except.error e]
    | some (some (Except.ok id), st') =>
      (decodeRun H f st').map (fun l => Except.ok id :: l)

/-- the `for id in other { copy.delete(&id?[..]); }` drain loop of
`IBLT::missing`: the `?` propagates a decode error immediately; item
identifiers are `[u8; ID_LEN]` values, so `delete`'s length assertion is
trivially satisfied and `deleteRaw` is used directly. -/
def missingLoop (H : Nat → Nat → List Nat → Nat) :
    Nat → IBLT → IterState → Option (Except IBLTError IterState)
  | 0, _, _ => none
  | f + 1, copy, other =>
    match iterNext H (f + 1) other with
    | none => none
    | some (none, _) => some (Except.ok (iterNew H copy false))
    | some (some (Except.error e), _) => some (Except.error e)
    | some (some (Except.ok id), other') => missingLoop H f (deleteRaw H copy id) other'

/-- `IBLT::missing(&mut self, other)`: clone the local table, drain
`other` deleting every decoded identifier from the clone, and on success
decode the clone with `added = false`.  The first component is the final
state of `self`, which the body never mutates (only the clone is). -/
def IBLT.missing (H : Nat → Nat → List Nat → Nat) (fuel : Nat) (t : IBLT)
    (other : IterState) : IBLT × Option (Except IBLTError IterState) :=
  (t, missingLoop H fuel t other)

/-- the `self.iter(true).any(|e| e.is_err())` loop of
`IBLT::is_overloaded`, with `any`'s early exit on the first error. -/
def anyErrLoop (H : Nat → Nat → List Nat → Nat) : Nat → IterState → Option Bool
  | 0, _ => none
  | f + 1, st =>
    match iterNext H (f + 1) st with
    | none => none
    | some (none, _) => some false
    | some (some (Except.error _), _) => some true
    | some (some (Except.ok _), st') => anyErrLoop H f st'

/-- `IBLT::is_overloaded`: decode a private copy in `added = true` mode and
report whether an error element occurred. -/
def IBLT.isOverloaded (H : Nat → Nat → List Nat → Nat) (fuel : Nat) (t : IBLT) :
    Option Bool :=
  anyErrLoop H fuel (iterNew H t true)

instance decEqExceptItem : DecidableEq (Except IBLTError (List Nat))
  | Except.error a, Except.error b => decidable_of_iff (a = b) (by simp)
  | Except.error _, Except.ok _ => isFalse (fun hh => by cases hh)
  | Except.ok _, Except.error _ => isFalse (fun hh => by cases hh)
  | Except.ok x, Except.ok y => decidable_of_iff (x = y) (by simp)

/-- is this decoded item the error element? (`e.is_err()`). -/
def exErr : Except IBLTError (List Nat) → Bool
  | Except.error _ => true
  | Except.ok _ => false

/-- the identifier of a successfully decoded item, if any. -/
def exOk : Except IBLTError (List Nat) → Option (List Nat)
  | Except.error _ => none
  | Except.ok id => some id

/-- the running hash of the spec's index chain after `j` rounds: starting
from `h = seed0`, iterate `h = hash(h, seed1, id)`.  Written from the
spec's words, to be compared with the source-side `chainIndicesAux`. -/
def specChain (H : Nat → Nat → List Nat → Nat) (k0 k1 : Nat) (id : List Nat)
    (j : Nat) : Nat :=
  (fun h => hash64 H h k1 id)^[j] k0

/-- the spec's description of the `k` selected buckets: round `j` reduces
the `(j+1)`-st chained hash into `[0, m)` by the multiply-high-bits range
reduction. -/
def specIndices (H : Nat → Nat → List Nat → Nat) (k0 k1 : Nat) (id : List Nat)
    (m r : Nat) : List Nat :=
  (List.range r).map (fun j => fastReduce (specChain H k0 k1 id (j + 1)) m)

/-- the spec's description of `insert`: compute the checksum hash
`hash(seed1, seed0, id)` once, then at each of the `k` chain-selected
buckets XOR `id` into `keysum`, add 1 to `counter` and XOR the checksum
into `keyhash`. -/
def specInsert (H : Nat → Nat → List Nat → Nat) (t : IBLT) (id : List Nat) : IBLT :=
  let kh := hash64 H t.k1 t.k0 id
  let bs := (specIndices H t.k0 t.k1 id t.buckets.length t.k).foldl
    (fun bs n => updN bs n (fun b =>
      ⟨zipXor b.keysum id, b.keyhash ^^^ kh, b.counter + 1⟩)) t.buckets
  { t with buckets := bs }

/-- the spec's description of `delete`: the identical traversal with the
counter decremented instead. -/
def specDelete (H : Nat → Nat → List Nat → Nat) (t : IBLT) (id : List Nat) : IBLT :=
  let kh := hash64 H t.k1 t.k0 id
  let bs := (specIndices H t.k0 t.k1 id t.buckets.length t.k).foldl
    (fun bs n => updN bs n (fun b =>
      ⟨zipXor b.keysum id, b.keyhash ^^^ kh, b.counter - 1⟩)) t.buckets
  { t with buckets := bs }

/-- an interleaving of inserts (`true`) and deletes (`false`) of one
identifier, applied in order. -/
def applyWord (H : Nat → Nat → List Nat → Nat) (id : List Nat) (t : IBLT) :
    List Bool → IBLT
  | [] => t
  | true :: w => applyWord H id (insertRaw H t id) w
  | false :: w => applyWord H id (deleteRaw H t id) w

/-- net insertion count of an interleaving: inserts minus deletes. -/
def netOf (w : List Bool) : Int :=
  (w.count true : Int) - (w.count false : Int)

/-- the canonical table reached by `z` net inserts (or `-z` net deletes)
of one identifier. -/
def normalForm (H : Nat → Nat → List Nat → Nat) (id : List Nat) (z : Int)
    (t : IBLT) : IBLT :=
  if 0 ≤ z then (fun s => insertRaw H s id)^[z.toNat] t
  else (fun s => deleteRaw H s id)^[(-z).toNat] t

/-- well-formedness: every bucket's key sum has the fixed identifier
length, as enforced by the `[u8; ID_LEN]` type in the source. -/
def wfT (t : IBLT) : Prop :=
  ∀ j, j < t.buckets.length → (t.buckets.getD j Bucket.empty).keysum.length = ID_LEN

/-- how many buckets differ between two tables of equal size. -/
def changedCount (t t' : IBLT) : Nat :=
  ((List.range t.buckets.length).filter
    (fun j => decide (t.buckets.getD j Bucket.empty ≠ t'.buckets.getD j Bucket.empty))).length

/-- key-sum part of `c` successive applications of `bucketUpd`: the XOR
with the identifier survives exactly when `c` is odd. -/
def xorP (id : List Nat) (c : Nat) (s : List Nat) : List Nat :=
  if c % 2 = 0 then s else zipXor s id

/-- key-hash part of `c` successive applications of `bucketUpd`. -/
def xorPh (kh : Nat) (c : Nat) (h : Nat) : Nat :=
  if c % 2 = 0 then h else h ^^^ kh

/-- a trivial concrete keyed hash, used to instantiate the abstract hash
in concrete evaluations. -/
def H0 : Nat → Nat → List Nat → Nat := fun _ _ _ => 0

/-- a concrete keyed hash whose two chain rounds on the seed 0 select the
two distinct buckets of a 2-bucket table. -/
def H1 : Nat → Nat → List Nat → Nat :=
  fun h _ _ => if h = 0 then 1 else if h = 1 then 2 ^ 63 else 0

/-- a concrete 32-byte identifier. -/
def idW : List Nat := List.replicate 32 1

/-- a concrete table: 3 buckets, fan-out 2, both seeds 0. -/
def tW : IBLT := IBLT.new 3 2 0 0

/-- a 1-bucket table with fan-out 2: both chain rounds select bucket 0. -/
def tX : IBLT := IBLT.new 1 2 0 0

/-- a 2-bucket table with fan-out 2 whose chain rounds under `H1` select
the two distinct buckets. -/
def tY : IBLT := IBLT.new 2 2 0 0

/-- a bucket whose counter has absolute value 1 but whose stored key hash
does not match the checksum hash of its key sum under `H0`. -/
def bC3 : Bucket := ⟨List.replicate 32 1, 1, 1⟩

/-- a decoder state about to pop a bucket that fails the key-hash half of
the purity test. -/
def stC3 : IterState := ⟨⟨[bC3], 0, 0, 1⟩, [0], 1⟩

/-- a decoder state with an exhausted queue and one unresolved bucket. -/
def stC4 : IterState := ⟨⟨[⟨List.replicate 32 0, 0, 1⟩], 0, 0, 1⟩, [], 1⟩

section FoldLemmas

variable {α : Type}

@[simp] theorem length_updN (l : List α) (n : Nat) (f : α → α) :
    (updN l n f).length = l.length := by
  induction l generalizing n with
  | nil => rfl
  | cons x xs ih =>
    cases n with
    | zero => rfl
    | succ n => simp [updN, ih]

theorem getD_updN_self (l : List α) (n : Nat) (f : α → α) (d : α)
    (h : n < l.length) : (updN l n f).getD n d = f (l.getD n d) := by
  induction l generalizing n with
  | nil => simp at h
  | cons x xs ih =>
    cases n with
    | zero => rfl
    | succ n =>
      simp only [updN, List.getD_cons_succ]
      exact ih n (by simpa using h)

theorem getD_updN_ne (l : List α) (n j : Nat) (f : α → α) (d : α)
    (h : n ≠ j) : (updN l n f).getD j d = l.getD j d := by
  induction l generalizing n j with
  | nil => rfl
  | cons x xs ih =>
    cases n with
    | zero =>
      cases j with
      | zero => exact absurd rfl h
      | succ j => rfl
    | succ n =>
      cases j with
      | zero => rfl
      | succ j =>
        simp only [updN, List.getD_cons_succ]
        exact ih n j (by omega)

theorem length_foldUpd (l : List Nat) (f : α → α) (bs : List α) :
    (l.foldl (fun b n => updN b n f) bs).length = bs.length := by
  induction l generalizing bs with
  | nil => rfl
  | cons n l ih => simp [List.foldl_cons, ih]

/-- positionwise effect of updating along a list of indices: position `j`
receives `f` once per occurrence of `j` in the index list. -/
theorem foldUpd_getD (l : List Nat) (f : α → α) (bs : List α) (d : α) (j : Nat)
    (hj : j < bs.length) :
    (l.foldl (fun b n => updN b n f) bs).getD j d = f^[l.count j] (bs.getD j d) := by
  induction l generalizing bs with
  | nil => rfl
  | cons n l ih =>
    simp only [List.foldl_cons]
    rw [ih (updN bs n f) (by simpa using hj)]
    by_cases hnj : n = j
    · subst hnj
      rw [getD_updN_self bs n f d hj]
      rw [List.count_cons_self, Function.iterate_succ_apply]
    · rw [getD_updN_ne bs n j f d hnj]
      rw [List.count_cons_of_ne (by simpa using Ne.symm hnj)]

end FoldLemmas

theorem length_mutRounds (H : Nat → Nat → List Nat → Nat) (k1 : Nat) (id : List Nat)
    (kh : Nat) (delta : Int) (r h : Nat) (bs : List Bucket) :
    (mutRounds H k1 id kh delta r h bs).length = bs.length := by
  induction r generalizing h bs with
  | zero => rfl
  | succ r ih => simp [mutRounds, ih]

/-- the mutation loop of `insert`/`delete` is the fold of per-bucket
updates along the precomputed chain indices (the bucket count, hence the
index stream, is unchanged by the updates). -/
theorem mutRounds_eq_foldl (H : Nat → Nat → List Nat → Nat) (k1 : Nat)
    (id : List Nat) (kh : Nat) (delta : Int) (r h : Nat) (bs : List Bucket) :
    mutRounds H k1 id kh delta r h bs =
      (chainIndicesAux H k1 id bs.length r h).foldl
        (fun b n => updN b n (bucketUpd id kh delta)) bs := by
  induction r generalizing h bs with
  | zero => rfl
  | succ r ih =>
    simp only [mutRounds, chainIndicesAux, List.foldl_cons]
    rw [ih]
    have hlen : (updN bs (fastReduce (hash64 H h k1 id) bs.length)
        (bucketUpd id kh delta)).length = bs.length := by simp
    rw [hlen]

/-- the source's interleaved index computation agrees with the spec's
"iterate the chain, reduce each value" description. -/
theorem chainIndicesAux_eq_spec (H : Nat → Nat → List Nat → Nat) (k1 : Nat)
    (id : List Nat) (m : Nat) (r h : Nat) :
    chainIndicesAux H k1 id m r h =
      (List.range r).map
        (fun j => fastReduce ((fun x => hash64 H x k1 id)^[j + 1] h) m) := by
  induction r generalizing h with
  | zero => rfl
  | succ r ih =>
    rw [chainIndicesAux, List.range_succ_eq_map, List.map_cons, List.map_map]
    congr 1
    rw [ih]
    apply List.map_congr_left
    intro j _
    simp only [Function.comp_apply, Nat.succ_eq_add_one]
    have hstep : (fun x => hash64 H x k1 id)^[j + 1 + 1] h
        = (fun x => hash64 H x k1 id)^[j + 1] (hash64 H h k1 id) :=
      Function.iterate_succ_apply _ _ _
    rw [hstep]

theorem fastReduce_lt (n r : Nat) (hn : n < 2 ^ 64) (hr : 0 < r) :
    fastReduce n r < r := by
  unfold fastReduce
  rw [Nat.div_lt_iff_lt_mul (by positivity)]
  calc n * r < 2 ^ 64 * r := (Nat.mul_lt_mul_right hr).mpr hn
  _ = r * 2 ^ 64 := Nat.mul_comm _ _

theorem chainIndicesAux_lt (H : Nat → Nat → List Nat → Nat) (k1 : Nat)
    (id : List Nat) (m : Nat) (r h : Nat) (hm : 0 < m) :
    ∀ j ∈ chainIndicesAux H k1 id m r h, j < m := by
  induction r generalizing h with
  | zero => intro j hj; simp [chainIndicesAux] at hj
  | succ r ih =>
    intro j hj
    rw [chainIndicesAux, List.mem_cons] at hj
    rcases hj with hj | hj
    · subst hj
      exact fastReduce_lt _ _ (Nat.mod_lt _ (by positivity)) hm
    · exact ih _ j hj

theorem length_zipXor (s id : List Nat) :
    (zipXor s id).length = min s.length id.length := by
  simp [zipXor]

theorem zipXor_zipXor (s id : List Nat) (h : s.length = id.length) :
    zipXor (zipXor s id) id = s := by
  induction s generalizing id with
  | nil => simp [zipXor]
  | cons a s ih =>
    cases id with
    | nil => simp at h
    | cons b id =>
      simp only [zipXor, List.zipWith_cons_cons]
      rw [show (a ^^^ b) ^^^ b = a by rw [Nat.xor_assoc, Nat.xor_self, Nat.xor_zero]]
      exact congrArg (a :: ·) (ih id (by simpa using h))

theorem zipXor_replicate_zero (id : List Nat) (n : Nat) (h : id.length = n) :
    zipXor (List.replicate n 0) id = id := by
  induction id generalizing n with
  | nil => subst h; rfl
  | cons b id ih =>
    subst h
    simp only [List.replicate, zipXor, List.zipWith_cons_cons, Nat.zero_xor]
    exact congrArg (b :: ·) (ih _ rfl)

theorem zipXor_self (id : List Nat) : zipXor id id = List.replicate id.length 0 := by
  induction id with
  | nil => rfl
  | cons b id ih =>
    simp only [zipXor, List.zipWith_cons_cons, Nat.xor_self, List.length_cons,
      List.replicate]
    exact congrArg (0 :: ·) ih

theorem length_xorP (id : List Nat) (c : Nat) (s : List Nat)
    (h : s.length = id.length) : (xorP id c s).length = id.length := by
  unfold xorP
  split
  · exact h
  · rw [length_zipXor, h, Nat.min_self]

theorem xorP_xorP (id : List Nat) (c c' : Nat) (s : List Nat)
    (h : s.length = id.length) (hcc : c % 2 = c' % 2) :
    xorP id c (xorP id c' s) = if (c + c') % 2 = 0 then s else xorP id c s := by
  unfold xorP
  by_cases hc : c' % 2 = 0
  · have hc2 : c % 2 = 0 := by omega
    have : (c + c') % 2 = 0 := by omega
    simp [hc, hc2, this]
  · have hc2 : ¬ c % 2 = 0 := by omega
    have : (c + c') % 2 = 0 := by omega
    simp [hc, hc2, this, zipXor_zipXor s id h]

/-- closed form of `c` successive applications of the same per-bucket
update. -/
theorem bucketUpd_iterate (id : List Nat) (kh : Nat) (delta : Int) (c : Nat)
    (b : Bucket) (hb : b.keysum.length = id.length) :
    (bucketUpd id kh delta)^[c] b =
      ⟨xorP id c b.keysum, xorPh kh c b.keyhash, b.counter + c * delta⟩ := by
  induction c with
  | zero => simp [xorP, xorPh]
  | succ c ih =>
    rw [Function.iterate_succ_apply', ih]
    unfold bucketUpd xorP xorPh
    by_cases hc : c % 2 = 0
    · have hc1 : ¬ (c + 1) % 2 = 0 := by omega
      simp only [hc, if_true, hc1, if_false]
      refine congrArg₂ (Bucket.mk _ ·) ?_ ?_ <;> push_cast <;> ring
    · have hc1 : (c + 1) % 2 = 0 := by omega
      simp only [hc, if_false, hc1, if_true]
      rw [zipXor_zipXor _ _ hb]
      refine congrArg₂ (Bucket.mk _ ·) ?_ ?_
      · rw [Nat.xor_assoc, Nat.xor_self, Nat.xor_zero]
      · push_cast; ring

theorem bucketUpd_keysum_length (id : List Nat) (kh : Nat) (delta : Int)
    (c : Nat) (b : Bucket) (hb : b.keysum.length = id.length) :
    ((bucketUpd id kh delta)^[c] b).keysum.length = id.length := by
  rw [bucketUpd_iterate id kh delta c b hb]
  exact length_xorP id c b.keysum hb

/-- `c` updates with `-delta` undo `c` updates with `delta`. -/
theorem bucketUpd_cancel (id : List Nat) (kh : Nat) (delta : Int) (c : Nat)
    (b : Bucket) (hb : b.keysum.length = id.length) :
    (bucketUpd id kh (-delta))^[c] ((bucketUpd id kh delta)^[c] b) = b := by
  rw [bucketUpd_iterate id kh delta c b hb]
  rw [bucketUpd_iterate id kh (-delta) c _ (length_xorP id c b.keysum hb)]
  simp only
  rw [xorP_xorP id c c b.keysum hb rfl]
  have h2 : (c + c) % 2 = 0 := by omega
  rw [if_pos h2]
  unfold xorPh
  by_cases hc : c % 2 = 0
  · simp only [hc, if_true]
    refine congrArg₂ (Bucket.mk _ ·) rfl ?_
    ring
  · simp only [hc, if_false]
    refine congrArg₂ (Bucket.mk _ ·) ?_ ?_
    · rw [Nat.xor_assoc, Nat.xor_self, Nat.xor_zero]
    · ring

theorem getD_eq_get {α : Type} (l : List α) (j : Nat) (h : j < l.length) (d : α) :
    l.getD j d = l.get ⟨j, h⟩ := by
  induction l generalizing j with
  | nil => simp at h
  | cons x xs ih =>
    cases j with
    | zero => rfl
    | succ j => exact ih j (by simpa using h)

/-- two bucket lists of equal length agreeing at every position (through
`getD`) are equal. -/
theorem buckets_ext {α : Type} (bs bs' : List α) (d : α)
    (hlen : bs.length = bs'.length)
    (h : ∀ j, j < bs.length → bs.getD j d = bs'.getD j d) : bs = bs' := by
  apply List.ext_get hlen
  intro j h1 h2
  rw [← getD_eq_get bs j h1 d, ← getD_eq_get bs' j h2 d]
  exact h j h1

/-- positionwise description of the mutation loop. -/
theorem mutRounds_getD (H : Nat → Nat → List Nat → Nat) (k1 : Nat) (id : List Nat)
    (kh : Nat) (delta : Int) (r h : Nat) (bs : List Bucket) (j : Nat)
    (hj : j < bs.length) :
    (mutRounds H k1 id kh delta r h bs).getD j Bucket.empty =
      (bucketUpd id kh delta)^[(chainIndicesAux H k1 id bs.length r h).count j]
        (bs.getD j Bucket.empty) := by
  rw [mutRounds_eq_foldl]
  exact foldUpd_getD _ _ bs Bucket.empty j hj

theorem length_insertRaw (H : Nat → Nat → List Nat → Nat) (t : IBLT) (id : List Nat) :
    (insertRaw H t id).buckets.length = t.buckets.length :=
  length_mutRounds H t.k1 id _ 1 t.k t.k0 t.buckets

theorem length_deleteRaw (H : Nat → Nat → List Nat → Nat) (t : IBLT) (id : List Nat) :
    (deleteRaw H t id).buckets.length = t.buckets.length :=
  length_mutRounds H t.k1 id _ (-1) t.k t.k0 t.buckets

theorem insertRaw_getD (H : Nat → Nat → List Nat → Nat) (t : IBLT) (id : List Nat)
    (j : Nat) (hj : j < t.buckets.length) :
    (insertRaw H t id).buckets.getD j Bucket.empty =
      (bucketUpd id (hash64 H t.k1 t.k0 id) 1)^[(indicesOf H t id).count j]
        (t.buckets.getD j Bucket.empty) :=
  mutRounds_getD H t.k1 id _ 1 t.k t.k0 t.buckets j hj

theorem deleteRaw_getD (H : Nat → Nat → List Nat → Nat) (t : IBLT) (id : List Nat)
    (j : Nat) (hj : j < t.buckets.length) :
    (deleteRaw H t id).buckets.getD j Bucket.empty =
      (bucketUpd id (hash64 H t.k1 t.k0 id) (-1))^[(indicesOf H t id).count j]
        (t.buckets.getD j Bucket.empty) :=
  mutRounds_getD H t.k1 id _ (-1) t.k t.k0 t.buckets j hj

theorem wfT_mutRounds (H : Nat → Nat → List Nat → Nat) (k1 : Nat) (id : List Nat)
    (kh : Nat) (delta : Int) (r h : Nat) (bs : List Bucket)
    (hw : ∀ j, j < bs.length → (bs.getD j Bucket.empty).keysum.length = id.length) :
    ∀ j, j < (mutRounds H k1 id kh delta r h bs).length →
      ((mutRounds H k1 id kh delta r h bs).getD j Bucket.empty).keysum.length
        = id.length := by
  intro j hj
  rw [length_mutRounds] at hj
  rw [mutRounds_getD H k1 id kh delta r h bs j hj]
  exact bucketUpd_keysum_length id kh delta _ _ (hw j hj)

theorem wfT_insertRaw (H : Nat → Nat → List Nat → Nat) (t : IBLT) (id : List Nat)
    (hw : wfT t) (hid : id.length = ID_LEN) : wfT (insertRaw H t id) := by
  intro j hj
  rw [show ID_LEN = id.length from hid.symm]
  exact wfT_mutRounds H t.k1 id _ 1 t.k t.k0 t.buckets
    (fun j hj => by rw [hw j hj, hid]) j hj

theorem wfT_deleteRaw (H : Nat → Nat → List Nat → Nat) (t : IBLT) (id : List Nat)
    (hw : wfT t) (hid : id.length = ID_LEN) : wfT (deleteRaw H t id) := by
  intro j hj
  rw [show ID_LEN = id.length from hid.symm]
  exact wfT_mutRounds H t.k1 id _ (-1) t.k t.k0 t.buckets
    (fun j hj => by rw [hw j hj, hid]) j hj

/-- the mutation loop with `-delta` exactly undoes the loop with `delta`. -/
theorem mutRounds_cancel (H : Nat → Nat → List Nat → Nat) (k1 : Nat) (id : List Nat)
    (kh : Nat) (delta : Int) (r h : Nat) (bs : List Bucket)
    (hw : ∀ j, j < bs.length → (bs.getD j Bucket.empty).keysum.length = id.length) :
    mutRounds H k1 id kh (-delta) r h (mutRounds H k1 id kh delta r h bs) = bs := by
  apply buckets_ext _ _ Bucket.empty
  · rw [length_mutRounds, length_mutRounds]
  · intro j hj
    rw [length_mutRounds, length_mutRounds] at hj
    rw [mutRounds_getD H k1 id kh (-delta) r h _ j
      (by rw [length_mutRounds]; exact hj)]
    rw [length_mutRounds]
    rw [mutRounds_getD H k1 id kh delta r h bs j hj]
    exact bucketUpd_cancel id kh delta _ _ (hw j hj)

/-- `delete` exactly undoes a preceding `insert` of the same identifier. -/
theorem deleteRaw_insertRaw (H : Nat → Nat → List Nat → Nat) (t : IBLT)
    (id : List Nat) (hw : wfT t) (hid : id.length = ID_LEN) :
    deleteRaw H (insertRaw H t id) id = t := by
  obtain ⟨bs, k0, k1, k⟩ := t
  simp only [insertRaw, deleteRaw, length_mutRounds]
  refine congrArg (fun b => IBLT.mk b k0 k1 k) ?_
  exact mutRounds_cancel H k1 id _ 1 k k0 bs
    (fun j hj => by rw [hw j hj, hid])

/-- `insert` exactly undoes a preceding `delete` of the same identifier. -/
theorem insertRaw_deleteRaw (H : Nat → Nat → List Nat → Nat) (t : IBLT)
    (id : List Nat) (hw : wfT t) (hid : id.length = ID_LEN) :
    insertRaw H (deleteRaw H t id) id = t := by
  obtain ⟨bs, k0, k1, k⟩ := t
  simp only [insertRaw, deleteRaw, length_mutRounds]
  refine congrArg (fun b => IBLT.mk b k0 k1 k) ?_
  have h1 : (1 : Int) = -(-1) := by norm_num
  rw [h1]
  exact mutRounds_cancel H k1 id _ (-1) k k0 bs
    (fun j hj => by rw [hw j hj, hid])

theorem normalForm_insertRaw (H : Nat → Nat → List Nat → Nat) (id : List Nat)
    (z : Int) (t : IBLT) (hw : wfT t) (hid : id.length = ID_LEN) :
    normalForm H id z (insertRaw H t id) = normalForm H id (z + 1) t := by
  unfold normalForm
  by_cases hz : 0 ≤ z
  · rw [if_pos hz, if_pos (by omega)]
    rw [show (z + 1).toNat = z.toNat + 1 by omega, Function.iterate_succ_apply]
  · rw [if_neg hz]
    by_cases hz1 : z = -1
    · subst hz1
      norm_num
      exact deleteRaw_insertRaw H t id hw hid
    · rw [if_neg (by omega)]
      rw [show (-z).toNat = (-(z + 1)).toNat + 1 by omega,
        Function.iterate_succ_apply]
      rw [deleteRaw_insertRaw H t id hw hid]

theorem normalForm_deleteRaw (H : Nat → Nat → List Nat → Nat) (id : List Nat)
    (z : Int) (t : IBLT) (hw : wfT t) (hid : id.length = ID_LEN) :
    normalForm H id z (deleteRaw H t id) = normalForm H id (z - 1) t := by
  unfold normalForm
  by_cases hz : 0 ≤ z
  · by_cases hz1 : z = 0
    · subst hz1
      norm_num
    · rw [if_pos hz, if_pos (by omega)]
      rw [show z.toNat = (z - 1).toNat + 1 by omega, Function.iterate_succ_apply]
      rw [insertRaw_deleteRaw H t id hw hid]
  · rw [if_neg hz, if_neg (by omega)]
    rw [show (-(z - 1)).toNat = (-z).toNat + 1 by omega,
      Function.iterate_succ_apply]

theorem netOf_cons (op : Bool) (w : List Bool) :
    netOf (op :: w) = (if op then 1 else -1) + netOf w := by
  cases op <;> simp [netOf, List.count_cons] <;> omega

/-- every interleaving of inserts and deletes of one identifier reaches
the canonical table of its net count. -/
theorem applyWord_eq_normalForm (H : Nat → Nat → List Nat → Nat) (id : List Nat)
    (w : List Bool) (t : IBLT) (hw : wfT t) (hid : id.length = ID_LEN) :
    applyWord H id t w = normalForm H id (netOf w) t := by
  induction w generalizing t with
  | nil => simp [applyWord, netOf, normalForm]
  | cons op w ih =>
    rw [netOf_cons]
    cases op
    · rw [if_neg (by simp), show applyWord H id t (false :: w)
        = applyWord H id (deleteRaw H t id) w from rfl]
      rw [ih (deleteRaw H t id) (wfT_deleteRaw H t id hw hid)]
      rw [normalForm_deleteRaw H id (netOf w) t hw hid]
      rw [show (-1 : Int) + netOf w = netOf w - 1 by ring]
    · rw [if_pos rfl, show applyWord H id t (true :: w)
        = applyWord H id (insertRaw H t id) w from rfl]
      rw [ih (insertRaw H t id) (wfT_insertRaw H t id hw hid)]
      rw [normalForm_insertRaw H id (netOf w) t hw hid]
      rw [show (1 : Int) + netOf w = netOf w + 1 by ring]

theorem getD_replicate {α : Type} (n j : Nat) (a d : α) (hj : j < n) :
    (List.replicate n a).getD j d = a := by
  induction n generalizing j with
  | zero => omega
  | succ n ih =>
    cases j with
    | zero => rfl
    | succ j => exact ih j (by omega)

theorem wfT_new (m k k0 k1 : Nat) : wfT (IBLT.new m k k0 k1) := by
  intro j hj
  simp only [IBLT.new] at hj ⊢
  rw [getD_replicate _ j _ _ (by simpa using hj)]
  rfl

theorem insertRaw_eq_specInsert (H : Nat → Nat → List Nat → Nat) (t : IBLT)
    (id : List Nat) : insertRaw H t id = specInsert H t id := by
  unfold insertRaw specInsert specIndices specChain
  rw [mutRounds_eq_foldl, chainIndicesAux_eq_spec]
  rfl

theorem deleteRaw_eq_specDelete (H : Nat → Nat → List Nat → Nat) (t : IBLT)
    (id : List Nat) : deleteRaw H t id = specDelete H t id := by
  unfold deleteRaw specDelete specIndices specChain
  rw [mutRounds_eq_foldl, chainIndicesAux_eq_spec]
  rfl

/-- a Nodup index list inside `range m` is a permutation of the sub-list
of `range m` it selects. -/
theorem filter_mem_length (I : List Nat) (m : Nat) (hnd : I.Nodup)
    (hsub : ∀ x ∈ I, x < m) :
    ((List.range m).filter (fun j => decide (j ∈ I))).length = I.length := by
  apply List.Perm.length_eq
  rw [List.perm_ext_iff_of_nodup (List.Nodup.filter _ (List.nodup_range m)) hnd]
  intro a
  rw [List.mem_filter, List.mem_range]
  constructor
  · rintro ⟨_, ha⟩
    exact of_decide_eq_true ha
  · intro ha
    exact ⟨hsub a ha, decide_eq_true ha⟩

theorem length_chainIndicesAux (H : Nat → Nat → List Nat → Nat) (k1 : Nat)
    (id : List Nat) (m : Nat) (r h : Nat) :
    (chainIndicesAux H k1 id m r h).length = r := by
  induction r generalizing h with
  | zero => rfl
  | succ r ih => simp [chainIndicesAux, ih]

/-- repeated bucket updates with a nonzero counter step change the bucket
exactly when they are applied at least once. -/
theorem bucketUpd_iterate_ne (id : List Nat) (kh : Nat) (delta : Int)
    (hd : delta ≠ 0) (c : Nat) (b : Bucket) (hb : b.keysum.length = id.length) :
    (bucketUpd id kh delta)^[c] b ≠ b ↔ c ≠ 0 := by
  constructor
  · intro hne hc
    subst hc
    exact hne rfl
  · intro hc heq
    have hcnt := congrArg Bucket.counter heq
    rw [bucketUpd_iterate id kh delta c b hb] at hcnt
    simp only at hcnt
    have h0 : (c : Int) * delta = 0 := by linarith
    rcases mul_eq_zero.mp h0 with h | h
    · exact hc (by exact_mod_cast h)
    · exact hd h

/-- C1: `insert` computes the checksum hash `hash(seed1, seed0, id)` once,
then runs exactly `k` chain rounds `h = hash(h, seed1, id)` from
`h = seed0`, at each round selecting the bucket `(h * m) >> 64`, XOR-ing
the identifier into its key sum, adding 1 to its counter and XOR-ing the
checksum into its key hash; `delete` performs the identical traversal with
the counter decremented instead. -/
theorem claim_C1 (H : Nat → Nat → List Nat → Nat) (t : IBLT) (id : List Nat)
    (hid : id.length = ID_LEN) :
    IBLT.insert H t id = some (specInsert H t id)
    ∧ IBLT.delete H t id = some (specDelete H t id) := by
  constructor
  · rw [IBLT.insert, if_pos hid, insertRaw_eq_specInsert]
  · rw [IBLT.delete, if_pos hid, deleteRaw_eq_specDelete]

theorem claim_C1_witness :
    idW.length = ID_LEN
    ∧ (IBLT.insert H0 tW idW = some (specInsert H0 tW idW)
        ∧ IBLT.delete H0 tW idW = some (specDelete H0 tW idW)) :=
  ⟨by decide, claim_C1 H0 tW idW (by decide)⟩

/-- C2: deleting an identifier exactly cancels a preceding insert of the
same identifier, and any interleaving of inserts and deletes of one
identifier leaves the table in a state determined only by the net count. -/
theorem claim_C2 (H : Nat → Nat → List Nat → Nat) (t : IBLT) (id : List Nat)
    (hw : wfT t) (hid : id.length = ID_LEN) :
    (∀ t', IBLT.insert H t id = some t' → IBLT.delete H t' id = some t)
    ∧ ∀ w1 w2 : List Bool, netOf w1 = netOf w2 →
        applyWord H id t w1 = applyWord H id t w2 := by
  constructor
  · intro t' ht'
    rw [IBLT.insert, if_pos hid] at ht'
    rw [IBLT.delete, if_pos hid]
    rw [← Option.some_inj.mp ht']
    rw [deleteRaw_insertRaw H t id hw hid]
  · intro w1 w2 hnet
    rw [applyWord_eq_normalForm H id w1 t hw hid,
      applyWord_eq_normalForm H id w2 t hw hid, hnet]

theorem claim_C2_witness :
    wfT tW ∧ idW.length = ID_LEN
    ∧ netOf [true, false, true] = netOf [true]
    ∧ applyWord H0 idW tW [true, false, true] = applyWord H0 idW tW [true] :=
  ⟨wfT_new 3 2 0 0, by decide, by decide,
    (claim_C2 H0 tW idW (wfT_new 3 2 0 0) (by decide)).2
      [true, false, true] [true] (by decide)⟩

/-- C9: `insert` and `delete` panic (assertion failure, modelled as
`none`) exactly on identifiers whose length differs from 32 bytes. -/
theorem claim_C9 (H : Nat → Nat → List Nat → Nat) (t : IBLT) (id : List Nat) :
    (IBLT.insert H t id = none ↔ id.length ≠ ID_LEN)
    ∧ (IBLT.delete H t id = none ↔ id.length ≠ ID_LEN) := by
  unfold IBLT.insert IBLT.delete
  constructor <;> split <;> simp_all

/-- C10: the multiply-high-bits range reduction of a 64-bit value lands in
`[0, m)` for every positive `m`, so every chain-selected bucket index is
in bounds. -/
theorem claim_C10 :
    (∀ n r : Nat, n < 2 ^ 64 → 0 < r → fastReduce n r < r)
    ∧ (∀ (H : Nat → Nat → List Nat → Nat) (k1 : Nat) (id : List Nat)
        (m r h j : Nat), 0 < m → j ∈ chainIndicesAux H k1 id m r h → j < m) :=
  ⟨fun n r hn hr => fastReduce_lt n r hn hr,
    fun H k1 id m r h j hm hj => chainIndicesAux_lt H k1 id m r h hm j hj⟩

theorem claim_C10_witness :
    (2 ^ 63 < 2 ^ 64 ∧ 0 < 7 ∧ fastReduce (2 ^ 63) 7 < 7)
    ∧ (0 < 5 ∧ 0 ∈ chainIndicesAux H0 0 idW 5 1 0 ∧ 0 < 5) :=
  ⟨⟨by decide, by decide, claim_C10.1 (2 ^ 63) 7 (by decide) (by decide)⟩,
    ⟨by decide, by decide, claim_C10.2 H0 0 idW 5 1 0 0 (by decide) (by decide)⟩⟩

theorem changedCount_eq (t t' : IBLT) (I : List Nat) (hnd : I.Nodup)
    (hsub : ∀ x ∈ I, x < t.buckets.length)
    (hiff : ∀ j, j < t.buckets.length →
      ((t.buckets.getD j Bucket.empty ≠ t'.buckets.getD j Bucket.empty) ↔ j ∈ I)) :
    changedCount t t' = I.length := by
  unfold changedCount
  rw [List.filter_congr
    (fun j hj => decide_eq_decide.mpr (hiff j (List.mem_range.mp hj)))]
  exact filter_mem_length I _ hnd hsub

/-- C6 (amended): an `insert` or `delete` modifies exactly the buckets at
the chain-selected indices; this is `k` distinct buckets when the `k`
chain indices are pairwise distinct, and fewer when they collide. -/
theorem claim_C6 (H : Nat → Nat → List Nat → Nat) (t : IBLT) (id : List Nat)
    (hw : wfT t) (hid : id.length = ID_LEN) :
    (∀ j, j < t.buckets.length →
      (((insertRaw H t id).buckets.getD j Bucket.empty
          ≠ t.buckets.getD j Bucket.empty) ↔ j ∈ indicesOf H t id)
      ∧ (((deleteRaw H t id).buckets.getD j Bucket.empty
          ≠ t.buckets.getD j Bucket.empty) ↔ j ∈ indicesOf H t id))
    ∧ ((indicesOf H t id).Nodup → 0 < t.buckets.length →
        changedCount t (insertRaw H t id) = t.k
        ∧ changedCount t (deleteRaw H t id) = t.k) := by
  have hwb : ∀ j, j < t.buckets.length →
      (t.buckets.getD j Bucket.empty).keysum.length = id.length := by
    intro j hj
    rw [hw j hj, hid]
  have hins : ∀ j, j < t.buckets.length →
      (((insertRaw H t id).buckets.getD j Bucket.empty
        ≠ t.buckets.getD j Bucket.empty) ↔ j ∈ indicesOf H t id) := by
    intro j hj
    rw [insertRaw_getD H t id j hj]
    rw [bucketUpd_iterate_ne id _ 1 (by norm_num) _ _ (hwb j hj)]
    rw [← Nat.pos_iff_ne_zero, List.count_pos_iff]
  have hdel : ∀ j, j < t.buckets.length →
      (((deleteRaw H t id).buckets.getD j Bucket.empty
        ≠ t.buckets.getD j Bucket.empty) ↔ j ∈ indicesOf H t id) := by
    intro j hj
    rw [deleteRaw_getD H t id j hj]
    rw [bucketUpd_iterate_ne id _ (-1) (by norm_num) _ _ (hwb j hj)]
    rw [← Nat.pos_iff_ne_zero, List.count_pos_iff]
  refine ⟨fun j hj => ⟨hins j hj, hdel j hj⟩, fun hnd hm => ?_⟩
  have hsub : ∀ x ∈ indicesOf H t id, x < t.buckets.length :=
    fun x hx => chainIndicesAux_lt H t.k1 id t.buckets.length t.k t.k0 hm x hx
  have hlen : (indicesOf H t id).length = t.k :=
    length_chainIndicesAux H t.k1 id t.buckets.length t.k t.k0
  constructor
  · rw [changedCount_eq t _ _ hnd hsub (fun j hj => by rw [ne_comm]; exact hins j hj)]
    exact hlen
  · rw [changedCount_eq t _ _ hnd hsub (fun j hj => by rw [ne_comm]; exact hdel j hj)]
    exact hlen

theorem claim_C6_counterexample :
    tX.k = 2 ∧ changedCount tX (insertRaw H0 tX idW) = 1 := by decide

theorem claim_C6_witness :
    wfT tY ∧ idW.length = ID_LEN ∧ (indicesOf H1 tY idW).Nodup
    ∧ 0 < tY.buckets.length
    ∧ changedCount tY (insertRaw H1 tY idW) = tY.k
    ∧ changedCount tY (deleteRaw H1 tY idW) = tY.k :=
  ⟨wfT_new 2 2 0 0, by decide, by decide, by decide,
    ((claim_C6 H1 tY idW (wfT_new 2 2 0 0) (by decide)).2 (by decide) (by decide)).1,
    ((claim_C6 H1 tY idW (wfT_new 2 2 0 0) (by decide)).2 (by decide) (by decide)).2⟩

/-- C3 (amended): on popping bucket index `i`, only `|counter| == 1` is
re-checked; if it fails the bucket is skipped with no modification, while
if it holds the peel is always performed (even when the stored key hash no
longer matches the re-hashed key sum), and an identifier is emitted only
when additionally `counter == one` and the key hash matches. -/
theorem claim_C3 (H : Nat → Nat → List Nat → Nat) (st : IterState) (i : Nat)
    (rest : List Nat) (hq : st.queue = i :: rest) :
    ((st.iblt.buckets.getD i Bucket.empty).counter.natAbs ≠ 1 →
      iterStep H st = (StepRes.skip, ⟨st.iblt, rest, st.one⟩))
    ∧ ((st.iblt.buckets.getD i Bucket.empty).counter.natAbs = 1 →
      (iterStep H st).2 =
        ⟨{ st.iblt with buckets :=
            (peelRounds H st.iblt.k0 st.iblt.k1
              (st.iblt.buckets.getD i Bucket.empty).keysum
              (hash64 H st.iblt.k1 st.iblt.k0
                (st.iblt.buckets.getD i Bucket.empty).keysum)
              (st.iblt.buckets.getD i Bucket.empty).counter
              st.iblt.k st.iblt.k0 st.iblt.buckets rest).1 },
          (peelRounds H st.iblt.k0 st.iblt.k1
            (st.iblt.buckets.getD i Bucket.empty).keysum
            (hash64 H st.iblt.k1 st.iblt.k0
              (st.iblt.buckets.getD i Bucket.empty).keysum)
            (st.iblt.buckets.getD i Bucket.empty).counter
            st.iblt.k st.iblt.k0 st.iblt.buckets rest).2,
          st.one⟩
      ∧ ((iterStep H st).1
          = StepRes.emit (st.iblt.buckets.getD i Bucket.empty).keysum
        ↔ ((st.iblt.buckets.getD i Bucket.empty).counter = st.one
            ∧ hash64 H st.iblt.k1 st.iblt.k0
                (st.iblt.buckets.getD i Bucket.empty).keysum
              = (st.iblt.buckets.getD i Bucket.empty).keyhash))) := by
  obtain ⟨t, q, one⟩ := st
  dsimp only at hq ⊢
  subst hq
  constructor
  · intro hne
    simp only [iterStep]
    rw [if_neg hne]
  · intro heq
    constructor
    · simp only [iterStep]
      rw [if_pos heq]
    · simp only [iterStep]
      rw [if_pos heq]
      by_cases hf : ((t.buckets.getD i Bucket.empty).counter = one
          ∧ hash64 H t.k1 t.k0 (t.buckets.getD i Bucket.empty).keysum
            = (t.buckets.getD i Bucket.empty).keyhash)
      · rw [if_pos (by rw [Bool.and_eq_true, beq_iff_eq, beq_iff_eq]; exact hf)]
        exact iff_of_true rfl hf
      · rw [if_neg (fun hb => hf (by
          rw [Bool.and_eq_true, beq_iff_eq, beq_iff_eq] at hb
          exact hb))]
        exact iff_of_false (fun h => StepRes.noConfusion h) hf

/-- C3 counterexample: the popped bucket fails the full purity test (the
key-hash half), yet the production step still modifies the table. -/
theorem claim_C3_counterexample :
    pureB H0 0 0 (stC3.iblt.buckets.getD 0 Bucket.empty) = false
    ∧ (stC3.iblt.buckets.getD 0 Bucket.empty).counter.natAbs = 1
    ∧ (iterStep H0 stC3).2.iblt ≠ stC3.iblt := by decide

theorem claim_C3_witness :
    stC3.queue = 0 :: []
    ∧ (stC3.iblt.buckets.getD 0 Bucket.empty).counter.natAbs = 1
    ∧ (iterStep H0 stC3).2 =
        ⟨{ stC3.iblt with buckets :=
            (peelRounds H0 stC3.iblt.k0 stC3.iblt.k1
              (stC3.iblt.buckets.getD 0 Bucket.empty).keysum
              (hash64 H0 stC3.iblt.k1 stC3.iblt.k0
                (stC3.iblt.buckets.getD 0 Bucket.empty).keysum)
              (stC3.iblt.buckets.getD 0 Bucket.empty).counter
              stC3.iblt.k stC3.iblt.k0 stC3.iblt.buckets []).1 },
          (peelRounds H0 stC3.iblt.k0 stC3.iblt.k1
            (stC3.iblt.buckets.getD 0 Bucket.empty).keysum
            (hash64 H0 stC3.iblt.k1 stC3.iblt.k0
              (stC3.iblt.buckets.getD 0 Bucket.empty).keysum)
            (stC3.iblt.buckets.getD 0 Bucket.empty).counter
            stC3.iblt.k stC3.iblt.k0 stC3.iblt.buckets []).2,
          stC3.one⟩ :=
  ⟨rfl, by decide, ((claim_C3 H0 stC3 0 [] rfl).2 (by decide)).1⟩

/-- C4 (amended): with an exhausted queue, a pull yields the terminal
incomplete-decode error element whenever some bucket has a non-zero
counter — and leaves the state unchanged, so every subsequent pull yields
the same error element again rather than ending the sequence; with all
counters zero the pull signals end of sequence. -/
theorem claim_C4 (H : Nat → Nat → List Nat → Nat) (st : IterState) (f : Nat)
    (hq : st.queue = []) :
    ((∃ b ∈ st.iblt.buckets, b.counter ≠ 0) →
      iterNext H (f + 1) st
        = some (some (Except.error IBLTError.IncompleteIteration), st))
    ∧ ((∀ b ∈ st.iblt.buckets, b.counter = 0) →
      iterNext H (f + 1) st = some (none, st)) := by
  obtain ⟨t, q, one⟩ := st
  dsimp only at hq ⊢
  subst hq
  constructor
  · rintro ⟨b, hb, hbc⟩
    have hany : t.buckets.any (fun b => b.counter != 0) = true :=
      List.any_eq_true.mpr ⟨b, hb, by simpa using hbc⟩
    simp [iterNext, iterStep, hany]
  · intro hall
    have hany : t.buckets.any (fun b => b.counter != 0) = false := by
      rw [List.any_eq_false]
      intro b hb
      simpa using hall b hb
    simp [iterNext, iterStep, hany]

/-- C4 counterexample: after the terminal error element is produced the
state is unchanged, so the next pull produces the error element again —
the sequence does not end after one error element. -/
theorem claim_C4_counterexample :
    iterNext H0 1 stC4
      = some (some (Except.error IBLTError.IncompleteIteration), stC4)
    ∧ iterNext H0 1 stC4 ≠ some (none, stC4) := by decide

theorem claim_C4_witness :
    stC4.queue = []
    ∧ iterNext H0 1 stC4
        = some (some (Except.error IBLTError.IncompleteIteration), stC4) :=
  ⟨rfl, (claim_C4 H0 stC4 0 rfl).1 ⟨⟨List.replicate 32 0, 0, 1⟩, by decide, by decide⟩⟩

/-- the drain loop of `missing` is the decode trace of its input: an error
element aborts with that error, and otherwise every decoded identifier is
deleted from the clone, which is finally decoded with `added = false`. -/
theorem missingLoop_eq (H : Nat → Nat → List Nat → Nat) :
    ∀ (fuel : Nat) (t : IBLT) (other : IterState),
    missingLoop H fuel t other =
      (decodeRun H fuel other).map (fun items =>
        if items.any exErr then Except.error IBLTError.IncompleteIteration
        else Except.ok (iterNew H
          ((items.filterMap exOk).foldl (fun acc id => deleteRaw H acc id) t) false))
  | 0, _, _ => rfl
  | f + 1, t, other => by
    rw [missingLoop, decodeRun]
    cases hn : iterNext H (f + 1) other with
    | none => rfl
    | some r =>
      obtain ⟨it, st'⟩ := r
      cases it with
      | none => rfl
      | some e =>
        cases e with
        | error e => cases e; rfl
        | ok id =>
          dsimp only
          rw [missingLoop_eq H f (deleteRaw H t id) st', Option.map_map]
          cases decodeRun H f st' with
          | none => rfl
          | some items =>
            simp [List.any_cons, exErr, List.filterMap_cons, exOk]

/-- the early-exit error search of `is_overloaded` matches the decode
trace. -/
theorem anyErrLoop_eq (H : Nat → Nat → List Nat → Nat) :
    ∀ (fuel : Nat) (st : IterState),
    anyErrLoop H fuel st = (decodeRun H fuel st).map (fun items => items.any exErr)
  | 0, _ => rfl
  | f + 1, st => by
    rw [anyErrLoop, decodeRun]
    cases hn : iterNext H (f + 1) st with
    | none => rfl
    | some r =>
      obtain ⟨it, st'⟩ := r
      cases it with
      | none => rfl
      | some e =>
        cases e with
        | error e => rfl
        | ok id =>
          dsimp only
          rw [anyErrLoop_eq H f st', Option.map_map]
          cases decodeRun H f st' with
          | none => rfl
          | some items => simp [List.any_cons, exErr]

/-- C5: `missing` never mutates the local table, fails exactly when the
drained input sequence produces the terminal decode error (propagating it
immediately, with no partial result), and otherwise returns the decoder of
the clone with every drained identifier deleted, in `added = false` mode —
so an incomplete decode of the clone surfaces inside the returned
sequence, not as a failure of the call. -/
theorem claim_C5 (H : Nat → Nat → List Nat → Nat) (fuel : Nat) (t : IBLT)
    (other : IterState) :
    IBLT.missing H fuel t other =
      (t, (decodeRun H fuel other).map (fun items =>
        if items.any exErr then Except.error IBLTError.IncompleteIteration
        else Except.ok (iterNew H
          ((items.filterMap exOk).foldl (fun acc id => deleteRaw H acc id) t)
          false))) := by
  unfold IBLT.missing
  rw [missingLoop_eq]

/-- C7: `is_overloaded` is true exactly when the full `added = true`
decode of a private copy of the table contains the terminal
incomplete-decode error element; the pure embedding of the cloning `iter`
entry point leaves the original table untouched. -/
theorem claim_C7 (H : Nat → Nat → List Nat → Nat) (fuel : Nat) (t : IBLT) :
    IBLT.isOverloaded H fuel t
      = (decodeRun H fuel (iterNew H t true)).map (fun items => items.any exErr) := by
  unfold IBLT.isOverloaded
  rw [anyErrLoop_eq]

theorem updN_congr {α : Type} (l : List α) (n : Nat) (f g : α → α) (d : α)
    (h : f (l.getD n d) = g (l.getD n d)) : updN l n f = updN l n g := by
  induction l generalizing n with
  | nil => rfl
  | cons x xs ih =>
    cases n with
    | zero => simp only [updN, List.getD_cons_zero] at h ⊢; rw [h]
    | succ n =>
      simp only [updN, List.getD_cons_succ] at h ⊢
      rw [ih n h]

theorem iterate_const {α : Type} (e x : α) (c : Nat) (hc : c ≠ 0) :
    (fun _ => e)^[c] x = e := by
  cases c with
  | zero => exact absurd rfl hc
  | succ c => rw [Function.iterate_succ_apply']

theorem getD_replicate_empty (m i : Nat) :
    (List.replicate m Bucket.empty).getD i Bucket.empty = Bucket.empty := by
  induction m generalizing i with
  | zero => cases i <;> rfl
  | succ m ih =>
    cases i with
    | zero => rfl
    | succ i => exact ih i

theorem any_replicate_counter (m : Nat) :
    (List.replicate m Bucket.empty).any (fun b => b.counter != 0) = false := by
  induction m with
  | zero => rfl
  | succ m ih =>
    rw [List.replicate_succ, List.any_cons, ih]
    rfl

theorem pureB_empty (H : Nat → Nat → List Nat → Nat) (k0 k1 : Nat) :
    pureB H k0 k1 Bucket.empty = false := rfl

theorem length_new (m k k0 k1 : Nat) :
    (IBLT.new m k k0 k1).buckets.length = m := by
  simp [IBLT.new]

/-- undoing one insert-round contribution from a singly-loaded bucket
empties it. -/
theorem bucketUpd_full_empty (id : List Nat) (kh : Nat) (hid : id.length = ID_LEN) :
    bucketUpd id kh (-1) ⟨id, kh, 1⟩ = Bucket.empty := by
  unfold bucketUpd Bucket.empty
  rw [zipXor_self, hid, Nat.xor_self]
  norm_num

/-- inserting one identifier into a fresh table with pairwise distinct
chain indices loads exactly those buckets with the identifier, its
checksum hash and counter one. -/
theorem insert_new_getD (H : Nat → Nat → List Nat → Nat) (m k k0 k1 : Nat)
    (id : List Nat) (hid : id.length = ID_LEN)
    (hnd : (indicesOf H (IBLT.new m k k0 k1) id).Nodup) (j : Nat) (hj : j < m) :
    (insertRaw H (IBLT.new m k k0 k1) id).buckets.getD j Bucket.empty
      = if j ∈ indicesOf H (IBLT.new m k k0 k1) id
        then ⟨id, hash64 H k1 k0 id, 1⟩ else Bucket.empty := by
  rw [insertRaw_getD H _ id j (by rw [length_new]; exact hj)]
  by_cases hmem : j ∈ indicesOf H (IBLT.new m k k0 k1) id
  · rw [if_pos hmem, List.count_eq_one_of_mem hnd hmem, Function.iterate_one]
    show bucketUpd id (hash64 H k1 k0 id) 1
        ((List.replicate m Bucket.empty).getD j Bucket.empty)
      = ⟨id, hash64 H k1 k0 id, 1⟩
    rw [getD_replicate_empty]
    unfold bucketUpd Bucket.empty
    rw [zipXor_replicate_zero id ID_LEN hid, Nat.zero_xor]
    norm_num
  · rw [if_neg hmem, List.count_eq_zero.mpr hmem, Function.iterate_zero_apply]
    exact getD_replicate_empty m j

/-- the initial queue of a decoder over "fresh table plus one identifier"
is the ordered list of in-range positions among the chain indices. -/
theorem iterNew_insert_new_queue (H : Nat → Nat → List Nat → Nat)
    (m k k0 k1 : Nat) (id : List Nat) (added : Bool) (hid : id.length = ID_LEN)
    (hnd : (indicesOf H (IBLT.new m k k0 k1) id).Nodup) :
    (iterNew H (insertRaw H (IBLT.new m k k0 k1) id) added).queue
      = (List.range m).filter
          (fun j => decide (j ∈ indicesOf H (IBLT.new m k k0 k1) id)) := by
  show (List.range (insertRaw H (IBLT.new m k k0 k1) id).buckets.length).filter
      (fun i => pureB H k0 k1
        ((insertRaw H (IBLT.new m k k0 k1) id).buckets.getD i Bucket.empty))
    = (List.range m).filter
        (fun j => decide (j ∈ indicesOf H (IBLT.new m k k0 k1) id))
  rw [show (insertRaw H (IBLT.new m k k0 k1) id).buckets.length = m by
    rw [length_insertRaw, length_new]]
  apply List.filter_congr
  intro j hj
  rw [List.mem_range] at hj
  rw [insert_new_getD H m k k0 k1 id hid hnd j hj]
  by_cases hmem : j ∈ indicesOf H (IBLT.new m k k0 k1) id
  · rw [if_pos hmem]
    simp [pureB, hmem]
  · rw [if_neg hmem]
    simp [pureB_empty, hmem]

theorem insertRaw_k0 (H : Nat → Nat → List Nat → Nat) (t : IBLT) (id : List Nat) :
    (insertRaw H t id).k0 = t.k0 := rfl

theorem insertRaw_k1 (H : Nat → Nat → List Nat → Nat) (t : IBLT) (id : List Nat) :
    (insertRaw H t id).k1 = t.k1 := rfl

theorem insertRaw_k (H : Nat → Nat → List Nat → Nat) (t : IBLT) (id : List Nat) :
    (insertRaw H t id).k = t.k := rfl

theorem new_k0 (m k k0 k1 : Nat) : (IBLT.new m k k0 k1).k0 = k0 := rfl

theorem new_k1 (m k k0 k1 : Nat) : (IBLT.new m k k0 k1).k1 = k1 := rfl

theorem new_k (m k k0 k1 : Nat) : (IBLT.new m k k0 k1).k = k := rfl

theorem indicesOf_new (H : Nat → Nat → List Nat → Nat) (m k k0 k1 : Nat)
    (id : List Nat) :
    indicesOf H (IBLT.new m k k0 k1) id = chainIndicesAux H k1 id m k k0 := by
  unfold indicesOf IBLT.new
  dsimp only
  rw [List.length_replicate]

/-- peeling an identifier whose (pairwise distinct) chain buckets each
hold exactly that identifier empties those buckets and enqueues nothing. -/
theorem peelRounds_clean (H : Nat → Nat → List Nat → Nat) (k0 k1 : Nat)
    (id : List Nat) (kh : Nat) (hid : id.length = ID_LEN) :
    ∀ (r h : Nat) (bs : List Bucket) (q : List Nat),
      0 < bs.length →
      (chainIndicesAux H k1 id bs.length r h).Nodup →
      (∀ n ∈ chainIndicesAux H k1 id bs.length r h,
        bs.getD n Bucket.empty = ⟨id, kh, 1⟩) →
      peelRounds H k0 k1 id kh 1 r h bs q
        = ((chainIndicesAux H k1 id bs.length r h).foldl
            (fun b n => updN b n (fun _ => Bucket.empty)) bs, q) := by
  intro r
  induction r with
  | zero =>
    intro h bs q _ _ _
    rfl
  | succ r ih =>
    intro h bs q hbs hnd hall
    have hn0 : fastReduce (hash64 H h k1 id) bs.length < bs.length :=
      fastReduce_lt _ _ (Nat.mod_lt _ (by positivity)) hbs
    have hb0 : bs.getD (fastReduce (hash64 H h k1 id) bs.length) Bucket.empty
        = ⟨id, kh, 1⟩ := by
      apply hall
      rw [chainIndicesAux]
      exact List.mem_cons_self _ _
    rw [chainIndicesAux] at hnd hall ⊢
    rw [List.nodup_cons] at hnd
    have hupd : (updN bs (fastReduce (hash64 H h k1 id) bs.length)
          (bucketUpd id kh (-1))).getD
          (fastReduce (hash64 H h k1 id) bs.length) Bucket.empty
        = Bucket.empty := by
      rw [getD_updN_self _ _ _ _ hn0, hb0, bucketUpd_full_empty id kh hid]
    simp only [peelRounds]
    rw [hupd, pureB_empty, if_neg Bool.false_ne_true]
    have hlen' : (updN bs (fastReduce (hash64 H h k1 id) bs.length)
        (bucketUpd id kh (-1))).length = bs.length := length_updN _ _ _
    rw [show (-1 : Int) = -(1) from rfl] at hlen' ⊢
    rw [ih (hash64 H h k1 id)
      (updN bs (fastReduce (hash64 H h k1 id) bs.length) (bucketUpd id kh (-1)))
      q (by rw [hlen']; exact hbs)
      (by rw [hlen']; exact hnd.2)
      (by
        rw [hlen']
        intro n hn
        have hne : fastReduce (hash64 H h k1 id) bs.length ≠ n := by
          intro hcontra
          exact hnd.1 (hcontra ▸ hn)
        rw [getD_updN_ne _ _ _ _ _ hne]
        exact hall n (List.mem_cons_of_mem _ hn))]
    rw [hlen', List.foldl_cons]
    rw [show updN bs (fastReduce (hash64 H h k1 id) bs.length)
          (fun _ => Bucket.empty)
        = updN bs (fastReduce (hash64 H h k1 id) bs.length)
            (bucketUpd id kh (-1)) from
      updN_congr _ _ _ _ Bucket.empty
        (by rw [hb0, bucketUpd_full_empty id kh hid])]

/-- emptying the chain buckets of "fresh table plus one identifier"
restores the fresh table. -/
theorem foldl_setEmpty_insert_new (H : Nat → Nat → List Nat → Nat)
    (m k k0 k1 : Nat) (id : List Nat) (hid : id.length = ID_LEN)
    (hnd : (indicesOf H (IBLT.new m k k0 k1) id).Nodup) :
    (indicesOf H (IBLT.new m k k0 k1) id).foldl
        (fun b n => updN b n (fun _ => Bucket.empty))
        (insertRaw H (IBLT.new m k k0 k1) id).buckets
      = List.replicate m Bucket.empty := by
  apply buckets_ext _ _ Bucket.empty
  · rw [length_foldUpd, length_insertRaw, length_new, List.length_replicate]
  · intro j hj
    rw [length_foldUpd, length_insertRaw, length_new] at hj
    rw [foldUpd_getD _ _ _ _ j (by rw [length_insertRaw, length_new]; exact hj)]
    rw [getD_replicate_empty]
    by_cases hmem : j ∈ indicesOf H (IBLT.new m k k0 k1) id
    · exact iterate_const _ _ _
        (fun h0 => (List.count_eq_zero.mp h0) hmem)
    · rw [List.count_eq_zero.mpr hmem, Function.iterate_zero_apply]
      rw [insert_new_getD H m k k0 k1 id hid hnd j hj, if_neg hmem]

/-- the first queue pop over "fresh table plus one identifier" always
peels the table back to fresh and emits the identifier exactly when the
requested direction is `+1`. -/
theorem iterStep_insert_new (H : Nat → Nat → List Nat → Nat) (m k k0 k1 : Nat)
    (id : List Nat) (hid : id.length = ID_LEN) (hm : 0 < m)
    (hnd : (indicesOf H (IBLT.new m k k0 k1) id).Nodup) (one : Int)
    (i0 : Nat) (Qt : List Nat)
    (hi0 : i0 ∈ indicesOf H (IBLT.new m k k0 k1) id) :
    iterStep H ⟨insertRaw H (IBLT.new m k k0 k1) id, i0 :: Qt, one⟩
      = (if (1 : Int) = one then StepRes.emit id else StepRes.skip,
         ⟨IBLT.new m k k0 k1, Qt, one⟩) := by
  have hi0m : i0 < m := by
    rw [indicesOf_new] at hi0
    exact chainIndicesAux_lt H k1 id m k k0 hm i0 hi0
  have hlen1 : (insertRaw H (IBLT.new m k k0 k1) id).buckets.length = m := by
    rw [length_insertRaw, length_new]
  have hchain : chainIndicesAux H k1 id
      (insertRaw H (IBLT.new m k k0 k1) id).buckets.length k k0
      = indicesOf H (IBLT.new m k k0 k1) id := by
    rw [hlen1, indicesOf_new]
  have hgetD := insert_new_getD H m k k0 k1 id hid hnd i0 hi0m
  rw [if_pos hi0] at hgetD
  have hpeel : peelRounds H k0 k1 id (hash64 H k1 k0 id) 1 k k0
      (insertRaw H (IBLT.new m k k0 k1) id).buckets Qt
      = (List.replicate m Bucket.empty, Qt) := by
    rw [peelRounds_clean H k0 k1 id (hash64 H k1 k0 id) hid k k0
      (insertRaw H (IBLT.new m k k0 k1) id).buckets Qt
      (by rw [hlen1]; exact hm)
      (by rw [hchain]; exact hnd)
      (by
        rw [hchain]
        intro n hn
        have hnm : n < m := by
          rw [indicesOf_new] at hn
          exact chainIndicesAux_lt H k1 id m k k0 hm n hn
        rw [insert_new_getD H m k k0 k1 id hid hnd n hnm, if_pos hn])]
    rw [hchain, foldl_setEmpty_insert_new H m k k0 k1 id hid hnd]
  simp only [iterStep]
  rw [hgetD]
  rw [if_pos (show (Bucket.mk id (hash64 H k1 k0 id) 1).counter.natAbs = 1 from rfl)]
  dsimp only
  rw [insertRaw_k0, insertRaw_k1, insertRaw_k, new_k0, new_k1, new_k]
  rw [beq_self_eq_true, Bool.and_true, hpeel]
  dsimp only
  by_cases h1 : (1 : Int) = one
  · rw [if_pos (beq_iff_eq.mpr h1), if_pos h1]
    rfl
  · rw [if_neg (fun hb => h1 (beq_iff_eq.mp hb)), if_neg h1]
    rfl

/-- over a fresh (all-zero) table any queue drains silently: every pop
skips and the terminal scan finds no unresolved bucket. -/
theorem iterNext_drain (H : Nat → Nat → List Nat → Nat) (m k k0 k1 : Nat)
    (one : Int) :
    ∀ (q : List Nat) (f : Nat), q.length < f →
      iterNext H f ⟨IBLT.new m k k0 k1, q, one⟩
        = some (none, ⟨IBLT.new m k k0 k1, [], one⟩) := by
  intro q
  induction q with
  | nil =>
    intro f hf
    obtain ⟨f', rfl⟩ : ∃ f', f = f' + 1 := ⟨f - 1, by omega⟩
    have hstep : iterStep H ⟨IBLT.new m k k0 k1, [], one⟩
        = (StepRes.finished false, ⟨IBLT.new m k k0 k1, [], one⟩) := by
      simp only [iterStep]
      rw [show (IBLT.new m k k0 k1).buckets = List.replicate m Bucket.empty
        from rfl, any_replicate_counter]
    simp only [iterNext, hstep]
  | cons i q ih =>
    intro f hf
    obtain ⟨f', rfl⟩ : ∃ f', f = f' + 1 := ⟨f - 1, by omega⟩
    have hstep : iterStep H ⟨IBLT.new m k k0 k1, i :: q, one⟩
        = (StepRes.skip, ⟨IBLT.new m k k0 k1, q, one⟩) := by
      simp only [iterStep]
      rw [show (IBLT.new m k k0 k1).buckets = List.replicate m Bucket.empty
        from rfl, getD_replicate_empty]
      rw [if_neg (by decide)]
    simp only [iterNext, hstep]
    exact ih f' (by simpa using hf)

/-- C8 (amended): inserting one identifier into a freshly constructed
table whose k chain rounds select pairwise distinct buckets makes
`iterate(added = true)` yield exactly that identifier and then end without
error, and `iterate(added = false)` yield nothing.  The distinctness
hypothesis is forced by the counterexample below (one bucket, `k = 2`);
the claim says nothing about what a collision produces in general. -/
theorem claim_C8 (H : Nat → Nat → List Nat → Nat) (m k k0 k1 : Nat)
    (id : List Nat) (hid : id.length = ID_LEN) (hk : 0 < k) (hm : 0 < m)
    (hnd : (indicesOf H (IBLT.new m k k0 k1) id).Nodup)
    (fuel : Nat) (hfuel : m + 2 ≤ fuel) :
    decodeRun H fuel (iterNew H (insertRaw H (IBLT.new m k k0 k1) id) true)
      = some [Except.ok id]
    ∧ decodeRun H fuel (iterNew H (insertRaw H (IBLT.new m k k0 k1) id) false)
      = some [] := by
  obtain ⟨f, rfl⟩ : ∃ f, fuel = f + 1 + 1 := ⟨fuel - 2, by omega⟩
  cases hq : (List.range m).filter
      (fun j => decide (j ∈ indicesOf H (IBLT.new m k k0 k1) id)) with
  | nil =>
    exfalso
    have hIlen : (indicesOf H (IBLT.new m k k0 k1) id).length = k := by
      rw [indicesOf_new]
      exact length_chainIndicesAux H k1 id m k k0
    have hI : indicesOf H (IBLT.new m k k0 k1) id ≠ [] := by
      intro h0
      rw [h0] at hIlen
      simp at hIlen
      omega
    obtain ⟨i, hi⟩ := List.exists_mem_of_ne_nil _ hI
    have him : i < m := by
      rw [indicesOf_new] at hi
      exact chainIndicesAux_lt H k1 id m k k0 hm i hi
    have hin : i ∈ (List.range m).filter
        (fun j => decide (j ∈ indicesOf H (IBLT.new m k k0 k1) id)) :=
      List.mem_filter.mpr ⟨List.mem_range.mpr him, decide_eq_true hi⟩
    rw [hq] at hin
    exact absurd hin (List.not_mem_nil i)
  | cons i0 Qt =>
    have hi0 : i0 ∈ indicesOf H (IBLT.new m k k0 k1) id := by
      have hin : i0 ∈ (List.range m).filter
          (fun j => decide (j ∈ indicesOf H (IBLT.new m k k0 k1) id)) :=
        hq ▸ List.mem_cons_self i0 Qt
      exact of_decide_eq_true (List.mem_filter.mp hin).2
    have hQt : Qt.length < f + 1 := by
      have h1 := List.length_filter_le
        (fun j => decide (j ∈ indicesOf H (IBLT.new m k k0 k1) id)) (List.range m)
      rw [hq, List.length_range] at h1
      simp only [List.length_cons] at h1
      omega
    have hdrain1 : iterNext H (f + 1) ⟨IBLT.new m k k0 k1, Qt, 1⟩
        = some (none, ⟨IBLT.new m k k0 k1, [], 1⟩) :=
      iterNext_drain H m k k0 k1 1 Qt (f + 1) hQt
    have hdrain2 : iterNext H (f + 1) ⟨IBLT.new m k k0 k1, Qt, -1⟩
        = some (none, ⟨IBLT.new m k k0 k1, [], -1⟩) :=
      iterNext_drain H m k k0 k1 (-1) Qt (f + 1) hQt
    constructor
    · have hnew : iterNew H (insertRaw H (IBLT.new m k k0 k1) id) true
          = ⟨insertRaw H (IBLT.new m k k0 k1) id, i0 :: Qt, 1⟩ := by
        rw [show iterNew H (insertRaw H (IBLT.new m k k0 k1) id) true
            = ⟨insertRaw H (IBLT.new m k k0 k1) id,
                (iterNew H (insertRaw H (IBLT.new m k k0 k1) id) true).queue, 1⟩
          from rfl]
        rw [iterNew_insert_new_queue H m k k0 k1 id true hid hnd, hq]
      have hstep : iterStep H ⟨insertRaw H (IBLT.new m k k0 k1) id, i0 :: Qt, (1 : Int)⟩
          = (StepRes.emit id, ⟨IBLT.new m k k0 k1, Qt, 1⟩) := by
        rw [iterStep_insert_new H m k k0 k1 id hid hm hnd 1 i0 Qt hi0, if_pos rfl]
      have hnext : iterNext H (f + 1 + 1)
          ⟨insertRaw H (IBLT.new m k k0 k1) id, i0 :: Qt, (1 : Int)⟩
          = some (some (Except.ok id), ⟨IBLT.new m k k0 k1, Qt, 1⟩) := by
        simp only [iterNext, hstep]
      rw [hnew]
      simp only [decodeRun, hnext, hdrain1]
      rfl
    · have hnew : iterNew H (insertRaw H (IBLT.new m k k0 k1) id) false
          = ⟨insertRaw H (IBLT.new m k k0 k1) id, i0 :: Qt, -1⟩ := by
        rw [show iterNew H (insertRaw H (IBLT.new m k k0 k1) id) false
            = ⟨insertRaw H (IBLT.new m k k0 k1) id,
                (iterNew H (insertRaw H (IBLT.new m k k0 k1) id) false).queue, -1⟩
          from rfl]
        rw [iterNew_insert_new_queue H m k k0 k1 id false hid hnd, hq]
      have hstep : iterStep H ⟨insertRaw H (IBLT.new m k k0 k1) id, i0 :: Qt, (-1 : Int)⟩
          = (StepRes.skip, ⟨IBLT.new m k k0 k1, Qt, -1⟩) := by
        rw [iterStep_insert_new H m k k0 k1 id hid hm hnd (-1) i0 Qt hi0,
          if_neg (by decide)]
      have hnext : iterNext H (f + 1 + 1)
          ⟨insertRaw H (IBLT.new m k k0 k1) id, i0 :: Qt, (-1 : Int)⟩
          = some (none, ⟨IBLT.new m k k0 k1, [], -1⟩) := by
        simp only [iterNext, hstep]
        exact hdrain2
      rw [hnew]
      simp only [decodeRun, hnext]

/-- C8 counterexample: with one bucket and fan-out 2 the two chain rounds
collide, a single insert leaves the sole bucket with counter 2, and the
`added = true` decode of that concrete table yields the incomplete-decode
error rather than the inserted identifier — refuting the original claim's
universal statement. -/
theorem claim_C8_counterexample :
    decodeRun H0 3 (iterNew H0 (insertRaw H0 tX idW) true)
      = some [Except.error IBLTError.IncompleteIteration]
    ∧ decodeRun H0 3 (iterNew H0 (insertRaw H0 tX idW) true)
      ≠ some [Except.ok idW] := by decide

theorem claim_C8_witness :
    idW.length = ID_LEN ∧ 0 < 2 ∧ (indicesOf H1 tY idW).Nodup ∧ 2 + 2 ≤ 4
    ∧ (decodeRun H1 4 (iterNew H1 (insertRaw H1 tY idW) true)
        = some [Except.ok idW]
      ∧ decodeRun H1 4 (iterNew H1 (insertRaw H1 tY idW) false) = some []) :=
  ⟨by decide, by decide, by decide, by decide,
    claim_C8 H1 2 2 0 0 idW (by decide) (by decide) (by decide) (by decide)
      4 (by decide)⟩

end Iblt
